import Mathlib

/-!
Verification development for the gofast data-migration engine.

The Go sources are shallowly embedded: pure record manipulation becomes Lean
functions, the state store becomes an explicit write log threaded through the
operations, machine integers (`int64`) become `Int`, and time becomes an
explicit `Int` nanosecond clock passed to each operation that consults it.
-/

namespace Gofast

/-! ## State store data model (store/store.go) -/

/-- JobState mirrors `store.JobState`; the Go type is a string, but the
program only ever writes these four constants. -/
inductive JobState where
  | pending
  | inProgress
  | completed
  | failed
deriving DecidableEq

/-- JobRecord mirrors `store.JobRecord`: id, source path, destination path,
state, bytes transferred, total bytes, optional error message (empty string
for the Go zero value). `int64` fields become `Int`. -/
structure JobRecord where
  id : String
  sourcePath : String
  destinationPath : String
  state : JobState
  bytesTransferred : Int
  totalBytes : Int
  error : String
deriving DecidableEq

/-- The store is modelled as a write log, newest entry first.  `SaveJob`
prepends `(record.ID, record)` and `GetJob` returns the newest entry for the
key, which is exactly the observable upsert/lookup behaviour of both
`BoltStore` (a bbolt bucket) and the `MockStore` map used by the engine
tests.  Keeping the log also lets theorems inspect every write performed. -/
abbrev StoreM := List (String × JobRecord)

/-- `SaveJob` (store/store.go:72): upsert keyed by `job.ID`. -/
def saveJob (r : JobRecord) (st : StoreM) : StoreM := (r.id, r) :: st

/-- `GetJob` (store/store.go:91): newest value at the key; `none` models
`ErrJobNotFound`. -/
def getJob : StoreM → String → Option JobRecord
  | [], _ => none
  | (k, r) :: rest, id => if k = id then some r else getJob rest id

/-- A store is key-consistent when every logged record sits under its own id,
which holds for every store the program builds since `SaveJob` keys by
`record.ID`. -/
def wfStore (st : StoreM) : Prop := ∀ p ∈ st, (p.2).id = p.1

instance wfStoreDecidable (st : StoreM) : Decidable (wfStore st) := by
  unfold wfStore; infer_instance

/-! ## Engine data model (engine/job.go, provider.FileInfo) -/

/-- FileMeta mirrors `provider.FileInfo`: name, size, directory flag and
modification time (nanoseconds). -/
structure FileMeta where
  name : String
  size : Int
  isDir : Bool
  modTime : Int
deriving DecidableEq

/-- TransferJob mirrors `engine.TransferJob` as the tracker sees it: id,
source path, destination path and the (possibly absent, i.e. Go-`nil`)
source `FileInfo`.  The per-job context is not modelled. -/
structure TransferJob where
  id : String
  sourcePath : String
  destinationPath : String
  fileInfo : Option FileMeta
deriving DecidableEq

/-! ## Job tracker (engine/tracker.go) -/

/-- The record `InitJob` (engine/tracker.go:40) writes: a `Pending` record
with `BytesTransferred = 0` and `TotalBytes` taken from the job's `FileInfo`
when present, `0` when the `FileInfo` is nil. -/
def initRecord (job : TransferJob) : JobRecord :=
  { id := job.id
    sourcePath := job.sourcePath
    destinationPath := job.destinationPath
    state := JobState.pending
    bytesTransferred := 0
    totalBytes := match job.fileInfo with
      | none => 0
      | some fi => fi.size
    error := "" }

/-- The four tracker operations of engine/tracker.go. `failed` carries the
optional error message (`none` models a nil Go error, which leaves the
record's message unchanged). -/
inductive TrackerOp where
  | init (job : TransferJob)
  | inProgress (id : String)
  | completed (id : String)
  | failed (id : String) (msg : Option String)
deriving DecidableEq

/-- The record a tracker operation writes to the store, if any: `InitJob`
always writes; the three mark operations read-modify-write and write nothing
when `GetJob` fails (they return the error instead).  Translated from
engine/tracker.go:40-90. -/
def applyOp (st : StoreM) : TrackerOp → Option JobRecord
  | TrackerOp.init job => some (initRecord job)
  | TrackerOp.inProgress id =>
      (getJob st id).map (fun r => { r with state := JobState.inProgress })
  | TrackerOp.completed id =>
      (getJob st id).map (fun r =>
        { r with state := JobState.completed, bytesTransferred := r.totalBytes })
  | TrackerOp.failed id msg =>
      (getJob st id).map (fun r =>
        { r with state := JobState.failed,
                 error := match msg with | none => r.error | some m => m })

/-- Execute one tracker operation against the store. -/
def runOp (st : StoreM) (op : TrackerOp) : StoreM :=
  match applyOp st op with
  | none => st
  | some r => saveJob r st

/-- Execute a sequence of tracker operations, returning the final store and
the chronological list of records written to the store. -/
def runOps (st : StoreM) : List TrackerOp → StoreM × List JobRecord
  | [] => (st, [])
  | op :: ops =>
      match applyOp st op with
      | none => runOps st ops
      | some r =>
          let rest := runOps (saveJob r st) ops
          (rest.1, r :: rest.2)

/-- The chronological sequence of states written to the store for a fixed
job id by a run. -/
def stateTrace (id : String) (writes : List JobRecord) : List JobState :=
  (writes.filter (fun r => r.id = id)).map (fun r => r.state)

/-- Reachability in the lifecycle DAG Pending → InProgress → {Completed,
Failed}: `dagReach a b` holds when a record observed in state `a` may later
be observed in state `b` without a back-edge. -/
def dagReach : JobState → JobState → Bool
  | JobState.pending, _ => true
  | JobState.inProgress, s => s ≠ JobState.pending
  | JobState.completed, s => s = JobState.completed
  | JobState.failed, s => s = JobState.failed

/-- A state sequence is a non-decreasing path through the lifecycle DAG when
every consecutive pair respects `dagReach`. -/
def isDagTrace : List JobState → Bool
  | [] => true
  | [_] => true
  | a :: b :: rest => dagReach a b && isDagTrace (b :: rest)

/-- The job id a tracker operation addresses. -/
def opTarget : TrackerOp → String
  | TrackerOp.init job => job.id
  | TrackerOp.inProgress id => id
  | TrackerOp.completed id => id
  | TrackerOp.failed id _ => id

/-- The terminal operation `transferFile` issues: `MarkCompleted` on success,
`MarkFailed` otherwise. -/
def termOp (ok : Bool) (id : String) (msg : Option String) : TrackerOp :=
  if ok then TrackerOp.completed id else TrackerOp.failed id msg

def termState (ok : Bool) : JobState :=
  if ok then JobState.completed else JobState.failed

/-- The record the terminal operation writes when the looked-up record is
`r`: `MarkCompleted` forces `bytesTransferred := totalBytes`, `MarkFailed`
sets the message (engine/tracker.go:69-90). -/
def termRecord (ok : Bool) (msg : Option String) (r : JobRecord) : JobRecord :=
  if ok then
    { r with state := JobState.completed, bytesTransferred := r.totalBytes }
  else
    { r with state := JobState.failed,
             error := match msg with | none => r.error | some m => m }

/-! ## TrackedWriter (engine/tracker.go:92-160)

The wrapped destination stream is modelled explicitly: each call to `Write`
is described by a `WriteStep` carrying the chunk handed to the
`TrackedWriter`, the number of bytes the underlying stream accepts for it,
whether the underlying stream reports an error, and the wall-clock time
(`time.Now()` in nanoseconds) at which the call happens. -/

/-- `CheckpointConfig` (engine/tracker.go:12): byte and time thresholds,
`time.Duration` as nanoseconds. -/
structure CheckpointConfig where
  bytesInterval : Int
  timeInterval : Int
deriving DecidableEq

/-- `DefaultCheckpointConfig` (engine/tracker.go:20): 10 MiB, 5 s. -/
def defaultCheckpointConfig : CheckpointConfig :=
  { bytesInterval := 10 * 1024 * 1024, timeInterval := 5 * 1000000000 }

/-- The mutable counters of a `TrackedWriter`. -/
structure TrackedWriter where
  jobID : String
  bytesWritten : Int
  lastCheckpoint : Int
  lastCheckpointT : Int
deriving DecidableEq

/-- `NewTrackedWriter` (engine/tracker.go:105): counters start at
`startBytes`, the checkpoint clock at the creation time. -/
def newTrackedWriter (jobID : String) (startBytes : Int) (now : Int) : TrackedWriter :=
  { jobID := jobID
    bytesWritten := startBytes
    lastCheckpoint := startBytes
    lastCheckpointT := now }

/-- One call to `TrackedWriter.Write`: the chunk `p`, the count the
underlying stream accepts (capped at `p`'s length, as `io.Writer` requires),
the underlying stream's error flag, and the current time. -/
structure WriteStep where
  chunk : List Nat
  accepted : Nat
  werr : Bool
  now : Int
deriving DecidableEq

/-- `checkpoint` (engine/tracker.go:140): read the record, set
`BytesTransferred := bytes`, save (errors swallowed), and move both
thresholds; a failed `GetJob` leaves everything untouched. -/
def twCheckpoint (tw : TrackedWriter) (st : StoreM) (bytes : Int) (now : Int) :
    TrackedWriter × StoreM :=
  match getJob st tw.jobID with
  | none => (tw, st)
  | some r =>
      ({ tw with lastCheckpoint := bytes, lastCheckpointT := now },
       saveJob { r with bytesTransferred := bytes } st)

/-- Result of one `TrackedWriter.Write` call: updated counters, updated
store, the chunk forwarded to the underlying stream, the returned byte
count, the returned error, and whether the checkpoint predicate fired. -/
structure WriteOut where
  tw : TrackedWriter
  st : StoreM
  forwarded : List Nat
  n : Nat
  err : Bool
  checkpointed : Bool

/-- `TrackedWriter.Write` (engine/tracker.go:117): forward `p` to the
underlying stream; when it made progress (`n > 0`) add `n` to
`bytesWritten` and checkpoint if the byte interval or the time interval has
elapsed since the last checkpoint. -/
def twWrite (cfg : CheckpointConfig) (st : StoreM) (tw : TrackedWriter)
    (s : WriteStep) : WriteOut :=
  let n := min s.accepted s.chunk.length
  if 0 < n then
    let bw := tw.bytesWritten + (n : Int)
    let needs : Bool := decide (bw - tw.lastCheckpoint ≥ cfg.bytesInterval)
      || decide (s.now - tw.lastCheckpointT ≥ cfg.timeInterval)
    let tw1 := { tw with bytesWritten := bw }
    if needs then
      let cp := twCheckpoint tw1 st bw s.now
      { tw := cp.1, st := cp.2, forwarded := s.chunk, n := n, err := s.werr,
        checkpointed := true }
    else
      { tw := tw1, st := st, forwarded := s.chunk, n := n, err := s.werr,
        checkpointed := false }
  else
    { tw := tw, st := st, forwarded := s.chunk, n := n, err := s.werr,
      checkpointed := false }

/-- Result of a sequence of `Write` calls: final counters, final store, and
the chunks forwarded to the underlying stream, in order. -/
structure SeqOut where
  tw : TrackedWriter
  st : StoreM
  forwarded : List (List Nat)

/-- Run a sequence of `Write` calls through a `TrackedWriter`. -/
def twWriteSeq (cfg : CheckpointConfig) (st : StoreM) (tw : TrackedWriter) :
    List WriteStep → SeqOut
  | [] => { tw := tw, st := st, forwarded := [] }
  | s :: ss =>
      let o := twWrite cfg st tw s
      let rest := twWriteSeq cfg o.st o.tw ss
      { tw := rest.tw, st := rest.st, forwarded := o.forwarded :: rest.forwarded }

/-- `BytesWritten` (engine/tracker.go:156): the current counter. -/
def twBytesWritten (tw : TrackedWriter) : Int := tw.bytesWritten

/-- The byte count the underlying stream accepts for one step. -/
def stepAccepted (s : WriteStep) : Int := (min s.accepted s.chunk.length : Nat)

/-- Total bytes the underlying stream accepts over a sequence of writes. -/
def sumAccepted (steps : List WriteStep) : Int :=
  (steps.map stepAccepted).sum

/-! ## Worker pool (engine/worker_pool.go)

The pool's map of per-worker quit channels is modelled by the list of live
worker ids; goroutine bodies are not modelled, only the bookkeeping that
`SetWorkerCount` / `WorkerCount` read and write under the mutex. -/

/-- The mutable bookkeeping of `WorkerPool`: the keys of the `workers` map,
the `workerCount` target (a Go `int`) and the next worker id. -/
structure WorkerPool where
  workers : List Nat
  workerCount : Int
  nextID : Nat
deriving DecidableEq

/-- `addWorker`: insert a fresh quit channel under `nextID`, increment the
count and the id counter (the spawned goroutine is not modelled). -/
def addWorker (p : WorkerPool) : WorkerPool :=
  { workers := p.nextID :: p.workers
    workerCount := p.workerCount + 1
    nextID := p.nextID + 1 }

/-- `removeWorker`: close and delete one arbitrary worker's quit channel
(the model removes the head) and decrement the count; when the map is empty
the range loop selects nothing and the function is a no-op. -/
def removeWorker (p : WorkerPool) : WorkerPool :=
  match p.workers with
  | [] => p
  | _ :: rest => { p with workers := rest, workerCount := p.workerCount - 1 }

/-- The `for p.workerCount < count` loop of `SetWorkerCount`. -/
def addLoop (target : Int) (p : WorkerPool) : WorkerPool :=
  if h : p.workerCount < target then addLoop target (addWorker p) else p
termination_by (target - p.workerCount).toNat
decreasing_by
  simp only [addWorker]
  omega

/-- The `for p.workerCount > count` loop of `SetWorkerCount`.  When the
count is positive but the worker map is empty the Go loop would spin
forever; that state is unreachable because the count always equals the map
size, and the model returns the pool unchanged there. -/
def removeLoop (target : Int) (p : WorkerPool) : WorkerPool :=
  if h : target < p.workerCount then
    match hw : p.workers with
    | [] => p
    | _ :: _ => removeLoop target (removeWorker p)
  else p
termination_by p.workers.length
decreasing_by
  simp only [removeWorker, hw]
  simp

/-- `SetWorkerCount` (engine/worker_pool.go:39): add workers while below the
target, then remove workers while above it. -/
def setWorkerCount (p : WorkerPool) (count : Int) : WorkerPool :=
  removeLoop count (addLoop count p)

/-- `WorkerCount` (engine/worker_pool.go:53). -/
def workerCountOf (p : WorkerPool) : Int := p.workerCount

/-- The pool invariant maintained by `addWorker`/`removeWorker`: the target
count equals the number of live quit channels. -/
def wfPool (p : WorkerPool) : Prop := p.workerCount = p.workers.length

instance wfPoolDecidable (p : WorkerPool) : Decidable (wfPool p) := by
  unfold wfPool; infer_instance

/-! ## Walker (engine/walker.go)

The source tree seen through the provider is a finite tree; paths are
modelled as lists of name segments (`filepath.Join` on clean slash paths is
segment append).  `List(path)` returns the children of the directory at
`path`, so a stack entry carries the relative path the Go walker stores
together with the directory node that listing the path yields. -/

/-- A node of the source tree: a regular file (with size and mtime) or a
directory with its children, as `provider.FileInfo` exposes them. -/
inductive FSNode where
  | file (name : String) (size : Int) (modTime : Int)
  | dir (name : String) (children : List FSNode)

/-- `FileInfo.Name()`. -/
def fname : FSNode → String
  | FSNode.file n _ _ => n
  | FSNode.dir n _ => n

/-- `FileInfo.IsDir()`. -/
def nodeIsDir : FSNode → Bool
  | FSNode.file _ _ _ => false
  | FSNode.dir _ _ => true

/-- The `FileInfo` record a listing reports for a node (a directory's size
is backend-specific and never used by the engine; the model reports 0). -/
def metaOf : FSNode → FileMeta
  | FSNode.file n sz mt => { name := n, size := sz, isDir := false, modTime := mt }
  | FSNode.dir n _ => { name := n, size := 0, isDir := true, modTime := 0 }

mutual

/-- Number of nodes of a tree, the walker's termination measure. -/
def nodeSize : FSNode → Nat
  | FSNode.file _ _ _ => 1
  | FSNode.dir _ cs => 1 + sizeList cs

/-- Total number of nodes of a forest. -/
def sizeList : List FSNode → Nat
  | [] => 0
  | c :: cs => nodeSize c + sizeList cs

end

/-- A path relative to a root, as slash-separated segments. -/
abbrev Path := List String

/-- The walker's `TransferJob` (engine/walker.go:36 and 94): the id and the
source path are the joined source path, the destination is the same
relative path under the destination root, and the `FileInfo` is the listed
entry. -/
structure WalkJob where
  id : Path
  sourcePath : Path
  destinationPath : Path
  info : FileMeta
deriving DecidableEq

def mkWalkJob (srcRoot destRoot rel : Path) (m : FileMeta) : WalkJob :=
  { id := srcRoot ++ rel
    sourcePath := srcRoot ++ rel
    destinationPath := destRoot ++ rel
    info := m }

/-- The subdirectory entries of one listing, paired with their relative
paths — the items the loop pushes onto the stack (engine/walker.go:89). -/
def dirEntriesOf (rel : Path) (cs : List FSNode) : List (Path × FSNode) :=
  (cs.filter (fun c => nodeIsDir c)).map (fun c => (rel ++ [fname c], c))

/-- The jobs one listing emits: one per non-directory entry, in listing
order (engine/walker.go:93). -/
def fileJobsOf (srcRoot destRoot rel : Path) (cs : List FSNode) : List WalkJob :=
  (cs.filter (fun c => !nodeIsDir c)).map
    (fun c => mkWalkJob srcRoot destRoot (rel ++ [fname c]) (metaOf c))

/-- Total tree size referenced by a stack, the loop's termination measure. -/
def stackSize (st : List (Path × FSNode)) : Nat :=
  (st.map (fun e => nodeSize e.2)).sum

/-- The walker's main loop (engine/walker.go:60): pop the top entry, list
it, push subdirectories (so that they are popped in reverse listing order,
as the Go slice stack does) and emit one job per file.  Popping a file
would make `List` fail, which aborts the walk with an error, as a failed
listing does in the Go code. -/
def walkLoop (srcRoot destRoot : Path) : List (Path × FSNode) → Except String (List WalkJob)
  | [] => Except.ok []
  | (_, FSNode.file _ _ _) :: _ => Except.error "failed to list directory"
  | (rel, FSNode.dir _ cs) :: rest =>
      match walkLoop srcRoot destRoot ((dirEntriesOf rel cs).reverse ++ rest) with
      | Except.error e => Except.error e
      | Except.ok tailJobs =>
          Except.ok (fileJobsOf srcRoot destRoot rel cs ++ tailJobs)
termination_by st => stackSize st
decreasing_by
  simp only [stackSize, List.map_reverse, List.map_append, List.sum_append,
    List.sum_reverse, List.map_cons, List.sum_cons, nodeSize]
  have h : ((dirEntriesOf rel cs).map (fun e => nodeSize e.2)).sum ≤ sizeList cs := by
    induction cs with
    | nil => simp [dirEntriesOf]
    | cons c cs ih =>
        by_cases hd : nodeIsDir c
        · simp only [dirEntriesOf, List.filter_cons, hd, decide_True, if_true,
            List.map_cons, List.sum_cons, sizeList] at ih ⊢
          omega
        · simp only [dirEntriesOf, List.filter_cons] at ih ⊢
          simp only [hd, decide_False, Bool.false_eq_true, if_false, sizeList]
          omega
  omega

/-- `Walk` (engine/walker.go:27): stat the root; a regular-file root emits
one job for the root itself, a directory root starts the loop with the
empty relative path on the stack. -/
def walk (srcRoot destRoot : Path) (root : FSNode) : Except String (List WalkJob) :=
  match root with
  | FSNode.file n sz mt =>
      Except.ok [mkWalkJob srcRoot destRoot [] (metaOf (FSNode.file n sz mt))]
  | FSNode.dir n cs => walkLoop srcRoot destRoot [([], FSNode.dir n cs)]

mutual

/-- The root-relative paths of the regular files at or under a node sitting
at relative path `rel` — the specification-side enumeration of the tree. -/
def filePathsFrom (rel : Path) : FSNode → List Path
  | FSNode.file _ _ _ => [rel]
  | FSNode.dir _ cs => filePathsList rel cs

/-- The file paths contributed by a forest of children of `rel`. -/
def filePathsList (rel : Path) : List FSNode → List Path
  | [] => []
  | c :: cs => filePathsFrom (rel ++ [fname c]) c ++ filePathsList rel cs

end

/-- No string occurs twice. -/
def distinctNames : List String → Bool
  | [] => true
  | n :: ns => !(ns.contains n) && distinctNames ns

/-- The names of a forest's roots. -/
def namesList (cs : List FSNode) : List String := cs.map fname

mutual

/-- Well-formedness of a source tree: within every directory, sibling names
are distinct — true of every real filesystem listing. -/
def wellNamed : FSNode → Bool
  | FSNode.file _ _ _ => true
  | FSNode.dir _ cs => distinctNames (namesList cs) && wellNamedList cs

/-- All trees of a forest are well-formed. -/
def wellNamedList : List FSNode → Bool
  | [] => true
  | c :: cs => wellNamed c && wellNamedList cs

end

/-- Every stack entry is a directory — true of every stack the walker
builds, since only directory entries are pushed. -/
def allDirs (st : List (Path × FSNode)) : Prop := ∀ e ∈ st, nodeIsDir e.2 = true

instance allDirsDecidable (st : List (Path × FSNode)) : Decidable (allDirs st) := by
  unfold allDirs; infer_instance

/-- The file paths a stack will still produce, entry by entry. -/
def stackFiles (st : List (Path × FSNode)) : List Path :=
  st.flatMap (fun e => filePathsFrom e.1 e.2)

/-! ## BoltStore serialization (store/store.go:72-111)

`SaveJob` marshals the record to JSON and puts it under the key `job.ID` in
the `jobs` bucket; `GetJob` gets and unmarshals.  JSON values are modelled
structurally (an object is its member list); the `JobState` string type is
restricted to the four constants the program writes, so decoding an unknown
state string, which Go would accept into the string-typed field, has no
counterpart here and fails. -/

/-- The fragment of JSON that `JobRecord` serialization uses. -/
inductive Json where
  | str (s : String)
  | num (n : Int)
  | obj (members : List (String × Json))

/-- Lookup in a JSON object's member list (first match, as Go's decoder
resolves duplicate keys by last... the encoder never emits duplicates). -/
def jGet : List (String × Json) → String → Option Json
  | [], _ => none
  | (k, v) :: rest, key => if k = key then some v else jGet rest key

/-- The `state` string constants of store/store.go:22-27. -/
def stateToString : JobState → String
  | JobState.pending => "Pending"
  | JobState.inProgress => "InProgress"
  | JobState.completed => "Completed"
  | JobState.failed => "Failed"

def stateOfString (s : String) : Option JobState :=
  if s = "Pending" then some JobState.pending
  else if s = "InProgress" then some JobState.inProgress
  else if s = "Completed" then some JobState.completed
  else if s = "Failed" then some JobState.failed
  else none

/-- `json.Marshal` of a `JobRecord` with the struct tags of
store/store.go:30-38; `error` carries `omitempty`, so the empty message is
omitted. -/
def marshalJobRecord (r : JobRecord) : Json :=
  Json.obj
    ([("id", Json.str r.id),
      ("source_path", Json.str r.sourcePath),
      ("destination_path", Json.str r.destinationPath),
      ("state", Json.str (stateToString r.state)),
      ("bytes_transferred", Json.num r.bytesTransferred),
      ("total_bytes", Json.num r.totalBytes)]
     ++ (if r.error = "" then [] else [("error", Json.str r.error)]))

/-- Decode a string field: a missing member yields the Go zero value `""`,
a non-string member is a type error. -/
def jStr (ms : List (String × Json)) (key : String) : Option String :=
  match jGet ms key with
  | none => some ""
  | some (Json.str s) => some s
  | some _ => none

/-- Decode an integer field: a missing member yields `0`. -/
def jNum (ms : List (String × Json)) (key : String) : Option Int :=
  match jGet ms key with
  | none => some 0
  | some (Json.num n) => some n
  | some _ => none

/-- Decode the state field. -/
def jState (ms : List (String × Json)) (key : String) : Option JobState :=
  match jGet ms key with
  | some (Json.str s) => stateOfString s
  | _ => none

/-- `json.Unmarshal` into a `JobRecord`. -/
def unmarshalJobRecord : Json → Option JobRecord
  | Json.obj ms => do
      let id ← jStr ms "id"
      let sp ← jStr ms "source_path"
      let dp ← jStr ms "destination_path"
      let stt ← jState ms "state"
      let bt ← jNum ms "bytes_transferred"
      let tb ← jNum ms "total_bytes"
      let er ← jStr ms "error"
      pure { id := id, sourcePath := sp, destinationPath := dp, state := stt,
             bytesTransferred := bt, totalBytes := tb, error := er }
  | _ => none

/-- The `jobs` bucket of the bbolt database: serialized values under string
keys, newest write first. -/
abbrev BoltStore := List (String × Json)

/-- `BoltStore.SaveJob` (store/store.go:72): marshal, then put under
`job.ID`. -/
def boltSaveJob (r : JobRecord) (db : BoltStore) : BoltStore :=
  (r.id, marshalJobRecord r) :: db

/-- `BoltStore.GetJob` (store/store.go:91): get the bytes at the key (the
newest put wins, `none` is `ErrJobNotFound`), then unmarshal. -/
def boltGetJob (db : BoltStore) (id : String) : Option JobRecord :=
  match jGet db id with
  | none => none
  | some v => unmarshalJobRecord v

/-! ## transferFile (cmd/gfast/main.go:218-289)

The worker's transfer handler, embedded at the level of its tracker and
store effects.  Provider behaviour is an explicit environment: whether the
source and destination open, the write calls the copy loop performs through
the `TrackedWriter`, and whether the copy or the destination close fails.
The `-checksum` flag is passed in exactly as the code receives it. -/

structure TransferEnv where
  openReadOk : Bool
  openWriteOk : Bool
  steps : List WriteStep
  copyErr : Option String
  closeErr : Option String

/-- `transferFile`: init the job, mark it in progress, open both ends
(failure marks the job failed and returns), copy through a `TrackedWriter`
started at 0 bytes, close, and mark completed — or failed at the first
error.  The `checksum` parameter is received but, as in the source (the
`TODO` at cmd/gfast/main.go:248), never consulted: no checksum adapters are
attached and no comparison happens at close. -/
def transferFile (cfg : CheckpointConfig) (job : TransferJob) (env : TransferEnv)
    (checksum : Bool) (t0 : Int) (st : StoreM) : StoreM × Bool :=
  let st1 := runOp st (TrackerOp.init job)
  let st2 := runOp st1 (TrackerOp.inProgress job.id)
  if !env.openReadOk then
    (runOp st2 (TrackerOp.failed job.id (some "failed to open source")), false)
  else if !env.openWriteOk then
    (runOp st2 (TrackerOp.failed job.id (some "failed to open destination")), false)
  else
    let o := twWriteSeq cfg st2 (newTrackedWriter job.id 0 t0) env.steps
    match env.copyErr with
    | some e => (runOp o.st (TrackerOp.failed job.id (some e)), false)
    | none =>
        match env.closeErr with
        | some e => (runOp o.st (TrackerOp.failed job.id (some e)), false)
        | none => (runOp o.st (TrackerOp.completed job.id), true)

/-! ## Concrete instances used by counterexamples and witnesses -/

/-- An in-progress record with 11 total bytes, as `transferFile` would have
initialized it for an 11-byte file. -/
def c5rec : JobRecord :=
  { id := "job2", sourcePath := "s", destinationPath := "d",
    state := JobState.inProgress, bytesTransferred := 0, totalBytes := 11,
    error := "" }

/-- An in-progress record for a 3-byte file. -/
def c6rec : JobRecord :=
  { id := "j", sourcePath := "s", destinationPath := "d",
    state := JobState.inProgress, bytesTransferred := 0, totalBytes := 3,
    error := "" }

/-- An in-progress record for a 100-byte file. -/
def c6recBig : JobRecord :=
  { id := "j", sourcePath := "s", destinationPath := "d",
    state := JobState.inProgress, bytesTransferred := 0, totalBytes := 100,
    error := "" }

/-- A fully accepted 3-byte write. -/
def c7step : WriteStep := { chunk := [1, 2, 3], accepted := 3, werr := false, now := 0 }

/-- A transfer job with no metadata (`FileInfo` nil). -/
def jobJ : TransferJob :=
  { id := "j", sourcePath := "s", destinationPath := "d", fileInfo := none }

/-- A second job under a different id, used to interleave operations. -/
def jobK : TransferJob :=
  { id := "k", sourcePath := "s2", destinationPath := "d2", fileInfo := none }

/-- An in-progress record whose transferred count disagrees with its total. -/
def c4rec : JobRecord :=
  { id := "j", sourcePath := "s", destinationPath := "d",
    state := JobState.inProgress, bytesTransferred := 7, totalBytes := 20,
    error := "" }

/-- A 3-byte job for the transfer model. -/
def tfJob : TransferJob :=
  { id := "a.txt", sourcePath := "a.txt", destinationPath := "b/a.txt",
    fileInfo := some { name := "a.txt", size := 3, isDir := false, modTime := 0 } }

/-- An all-success environment: both ends open, a fully accepted 3-byte
copy, no copy or close error. -/
def tfEnv : TransferEnv :=
  { openReadOk := true, openWriteOk := true,
    steps := [{ chunk := [97, 98, 99], accepted := 3, werr := false, now := 0 }],
    copyErr := none, closeErr := none }

/-- A small source tree: a 3-byte file and a subdirectory with an empty
file. -/
def testTree : FSNode :=
  FSNode.dir "A" [FSNode.file "a.txt" 3 0, FSNode.dir "sub" [FSNode.file "b.txt" 0 0]]

/-! ### Basic store lemmas -/

theorem getJob_saveJob_self (r : JobRecord) (st : StoreM) :
    getJob (saveJob r st) r.id = some r := by
  simp [saveJob, getJob]

theorem getJob_saveJob_ne (r : JobRecord) (st : StoreM) (id : String)
    (h : r.id ≠ id) : getJob (saveJob r st) id = getJob st id := by
  simp [saveJob, getJob, h]

theorem wfStore_getJob_id (st : StoreM) (id : String) (r : JobRecord)
    (hwf : wfStore st) (h : getJob st id = some r) : r.id = id := by
  induction st with
  | nil => simp [getJob] at h
  | cons p rest ih =>
      obtain ⟨k, v⟩ := p
      by_cases hk : k = id
      · subst hk
        simp [getJob] at h
        rw [← h]
        exact hwf _ (List.mem_cons_self _ _)
      · simp [getJob, hk] at h
        exact ih (fun q hq => hwf q (List.mem_cons_of_mem _ hq)) h

theorem wfStore_saveJob (r : JobRecord) (st : StoreM) (hwf : wfStore st) :
    wfStore (saveJob r st) := by
  intro p hp
  rcases List.mem_cons.mp hp with h | h
  · subst h; rfl
  · exact hwf p h

theorem applyOp_id (st : StoreM) (op : TrackerOp) (r : JobRecord)
    (hwf : wfStore st) (h : applyOp st op = some r) : r.id = opTarget op := by
  cases op with
  | init job => simp [applyOp] at h; rw [← h]; rfl
  | inProgress id =>
      simp [applyOp, Option.map_eq_some'] at h
      obtain ⟨r0, hget, hr⟩ := h
      rw [← hr]
      exact wfStore_getJob_id st id r0 hwf hget
  | completed id =>
      simp [applyOp, Option.map_eq_some'] at h
      obtain ⟨r0, hget, hr⟩ := h
      rw [← hr]
      exact wfStore_getJob_id st id r0 hwf hget
  | failed id msg =>
      simp [applyOp, Option.map_eq_some'] at h
      obtain ⟨r0, hget, hr⟩ := h
      rw [← hr]
      exact wfStore_getJob_id st id r0 hwf hget

theorem wfStore_runOp (st : StoreM) (op : TrackerOp) (hwf : wfStore st) :
    wfStore (runOp st op) := by
  unfold runOp
  cases h : applyOp st op with
  | none => exact hwf
  | some r => exact wfStore_saveJob r st hwf

theorem getJob_runOp_other (st : StoreM) (op : TrackerOp) (id : String)
    (hwf : wfStore st) (hne : opTarget op ≠ id) :
    getJob (runOp st op) id = getJob st id := by
  unfold runOp
  cases h : applyOp st op with
  | none => rfl
  | some r =>
      have hr : r.id = opTarget op := applyOp_id st op r hwf h
      exact getJob_saveJob_ne r st id (by rw [hr]; exact hne)

theorem runOps_cons_none (st : StoreM) (op : TrackerOp) (ops : List TrackerOp)
    (h : applyOp st op = none) : runOps st (op :: ops) = runOps st ops := by
  simp [runOps, h]

theorem runOps_cons_some (st : StoreM) (op : TrackerOp) (ops : List TrackerOp)
    (r : JobRecord) (h : applyOp st op = some r) :
    (runOps st (op :: ops)).2 = r :: (runOps (saveJob r st) ops).2 := by
  simp [runOps, h]

theorem stateTrace_cons_self (id : String) (r : JobRecord) (W : List JobRecord)
    (hid : r.id = id) : stateTrace id (r :: W) = r.state :: stateTrace id W := by
  simp [stateTrace, List.filter_cons, hid]

theorem stateTrace_cons_other (id : String) (r : JobRecord) (W : List JobRecord)
    (hid : r.id ≠ id) : stateTrace id (r :: W) = stateTrace id W := by
  simp [stateTrace, List.filter_cons, hid]

theorem runOp_eq_of_some (st : StoreM) (op : TrackerOp) (r : JobRecord)
    (h : applyOp st op = some r) : runOp st op = saveJob r st := by
  simp [runOp, h]

theorem runOp_eq_of_none (st : StoreM) (op : TrackerOp)
    (h : applyOp st op = none) : runOp st op = st := by
  simp [runOp, h]

theorem runOps_trace_other (st : StoreM) (op : TrackerOp) (ops : List TrackerOp)
    (id : String) (hwf : wfStore st) (hne : opTarget op ≠ id) :
    stateTrace id (runOps st (op :: ops)).2 =
      stateTrace id (runOps (runOp st op) ops).2 := by
  cases h : applyOp st op with
  | none => rw [runOps_cons_none st op ops h, runOp_eq_of_none st op h]
  | some r =>
      have hr : r.id = opTarget op := applyOp_id st op r hwf h
      rw [runOps_cons_some st op ops r h, runOp_eq_of_some st op r h,
        stateTrace_cons_other id r _ (by rw [hr]; exact hne)]

theorem opTarget_termOp (ok : Bool) (id : String) (msg : Option String) :
    opTarget (termOp ok id msg) = id := by
  cases ok <;> rfl

/-- Phase 0: operations never addressing `id` write no record for `id`. -/
theorem trace_nil_of_no_target (id : String) : ∀ (ops : List TrackerOp) (st : StoreM),
    wfStore st → ops.filter (fun op => opTarget op = id) = [] →
    stateTrace id (runOps st ops).2 = [] := by
  intro ops
  induction ops with
  | nil => intro st _ _; rfl
  | cons op rest ih =>
      intro st hwf hf
      by_cases ht : opTarget op = id
      · rw [List.filter_cons_of_pos (by simpa using ht)] at hf
        exact absurd hf (List.cons_ne_nil _ _)
      · rw [List.filter_cons_of_neg (by simpa using ht)] at hf
        rw [runOps_trace_other st op rest id hwf ht]
        exact ih (runOp st op) (wfStore_runOp st op hwf) hf

theorem applyOp_termOp (st : StoreM) (id : String) (ok : Bool) (msg : Option String)
    (r : JobRecord) (hget : getJob st id = some r) :
    applyOp st (termOp ok id msg) = some (termRecord ok msg r) := by
  cases ok <;> simp [termOp, termRecord, applyOp, hget]

theorem termRecord_id (ok : Bool) (msg : Option String) (r : JobRecord) :
    (termRecord ok msg r).id = r.id := by
  cases ok <;> rfl

theorem termRecord_state (ok : Bool) (msg : Option String) (r : JobRecord) :
    (termRecord ok msg r).state = termState ok := by
  cases ok <;> rfl

/-- Phase 3: with a record present for `id`, the remaining operations for
`id` being exactly the terminal one yields the terminal state alone. -/
theorem trace_term (id : String) (ok : Bool) (msg : Option String) :
    ∀ (ops : List TrackerOp) (st : StoreM) (r : JobRecord),
    wfStore st → getJob st id = some r →
    ops.filter (fun op => opTarget op = id) = [termOp ok id msg] →
    stateTrace id (runOps st ops).2 = [termState ok] := by
  intro ops
  induction ops with
  | nil => intro st r _ _ hf; simp at hf
  | cons op rest ih =>
      intro st r hwf hget hf
      by_cases ht : opTarget op = id
      · rw [List.filter_cons_of_pos (by simpa using ht)] at hf
        have hop : op = termOp ok id msg := (List.cons_eq_cons.mp hf).1
        have hrest : rest.filter (fun op => opTarget op = id) = [] :=
          (List.cons_eq_cons.mp hf).2
        subst hop
        have hid : r.id = id := wfStore_getJob_id st id r hwf hget
        rw [runOps_cons_some st _ rest _ (applyOp_termOp st id ok msg r hget),
          stateTrace_cons_self id _ _ (by rw [termRecord_id, hid]),
          termRecord_state,
          trace_nil_of_no_target id rest _ (wfStore_saveJob _ st hwf) hrest]
      · rw [List.filter_cons_of_neg (by simpa using ht)] at hf
        rw [runOps_trace_other st op rest id hwf ht]
        have hget' : getJob (runOp st op) id = getJob st id :=
          getJob_runOp_other st op id hwf ht
        exact ih (runOp st op) r (wfStore_runOp st op hwf) (hget'.trans hget) hf


/-! ### TrackedWriter lemmas -/

theorem getJob_mem (st : StoreM) (id : String) (r : JobRecord)
    (h : getJob st id = some r) : (id, r) ∈ st := by
  induction st with
  | nil => simp [getJob] at h
  | cons p rest ih =>
      obtain ⟨k, v⟩ := p
      by_cases hk : k = id
      · subst hk
        simp [getJob] at h
        rw [← h]
        exact List.mem_cons_self _ _
      · simp [getJob, hk] at h
        exact List.mem_cons_of_mem _ (ih h)

theorem twCheckpoint_jobID (tw : TrackedWriter) (st : StoreM) (bytes now : Int) :
    (twCheckpoint tw st bytes now).1.jobID = tw.jobID := by
  unfold twCheckpoint
  cases getJob st tw.jobID <;> rfl

theorem twCheckpoint_bytesWritten (tw : TrackedWriter) (st : StoreM) (bytes now : Int) :
    (twCheckpoint tw st bytes now).1.bytesWritten = tw.bytesWritten := by
  unfold twCheckpoint
  cases getJob st tw.jobID <;> rfl

/-- Case analysis of one `Write` call: the job id is preserved, the byte
counter advances by exactly the count the underlying stream accepted, the
chunk is forwarded unchanged, and the store is either untouched or receives
one record whose `bytesTransferred` is the new counter. -/
theorem twWrite_cases (cfg : CheckpointConfig) (st : StoreM) (tw : TrackedWriter)
    (s : WriteStep) :
    (twWrite cfg st tw s).tw.jobID = tw.jobID ∧
    (twWrite cfg st tw s).tw.bytesWritten = tw.bytesWritten + stepAccepted s ∧
    (twWrite cfg st tw s).forwarded = s.chunk ∧
    ((twWrite cfg st tw s).st = st ∨
      ∃ r, getJob st tw.jobID = some r ∧
        (twWrite cfg st tw s).st =
          saveJob { r with bytesTransferred := tw.bytesWritten + stepAccepted s } st) := by
  unfold twWrite
  by_cases h1 : 0 < min s.accepted s.chunk.length
  · simp only [if_pos h1]
    cases hn : decide (tw.bytesWritten + (min s.accepted s.chunk.length : Nat) -
        tw.lastCheckpoint ≥ cfg.bytesInterval)
      || decide (s.now - tw.lastCheckpointT ≥ cfg.timeInterval) with
    | false =>
        refine ⟨?_, ?_, ?_, Or.inl ?_⟩ <;> simp [stepAccepted]
    | true =>
        simp only [if_true]
        unfold twCheckpoint
        cases hg : getJob st tw.jobID with
        | none =>
            refine ⟨?_, ?_, ?_, Or.inl ?_⟩ <;> simp [stepAccepted]
        | some r =>
            refine ⟨?_, ?_, ?_, Or.inr ⟨r, rfl, ?_⟩⟩ <;> simp [stepAccepted]
  · have h0 : min s.accepted s.chunk.length = 0 := by omega
    simp only [if_neg h1]
    refine ⟨?_, ?_, ?_, Or.inl ?_⟩ <;> simp [stepAccepted, h0]

/-- When `Write` fires the checkpoint predicate. -/
theorem twWrite_checkpointed_iff (cfg : CheckpointConfig) (st : StoreM)
    (tw : TrackedWriter) (s : WriteStep) :
    ((twWrite cfg st tw s).checkpointed = true) ↔
      (0 < min s.accepted s.chunk.length ∧
        (tw.bytesWritten + stepAccepted s - tw.lastCheckpoint ≥ cfg.bytesInterval ∨
         s.now - tw.lastCheckpointT ≥ cfg.timeInterval)) := by
  unfold twWrite
  by_cases h1 : 0 < min s.accepted s.chunk.length
  · simp only [if_pos h1]
    cases hn : decide (tw.bytesWritten + (min s.accepted s.chunk.length : Nat) -
        tw.lastCheckpoint ≥ cfg.bytesInterval)
      || decide (s.now - tw.lastCheckpointT ≥ cfg.timeInterval) with
    | false =>
        simp only [Bool.or_eq_false_iff, decide_eq_false_iff_not] at hn
        simp only [Bool.false_eq_true, if_false]
        constructor
        · intro h
          simp at h
        · rintro ⟨-, hc⟩
          simp only [stepAccepted] at hc
          rcases hc with hc | hc
          · exact absurd hc hn.1
          · exact absurd hc hn.2
    | true =>
        simp only [Bool.or_eq_true, decide_eq_true_eq] at hn
        simp only [if_true]
        constructor
        · intro _
          exact ⟨h1, by simpa [stepAccepted] using hn⟩
        · intro _
          trivial
  · simp only [if_neg h1]
    constructor
    · intro h
      simp at h
    · rintro ⟨hc, -⟩
      exact absurd hc h1

theorem sumAccepted_cons (s : WriteStep) (ss : List WriteStep) :
    sumAccepted (s :: ss) = stepAccepted s + sumAccepted ss := by
  simp [sumAccepted]

theorem stepAccepted_nonneg (s : WriteStep) : 0 ≤ stepAccepted s := by
  simp [stepAccepted]

theorem sumAccepted_nonneg (steps : List WriteStep) : 0 ≤ sumAccepted steps := by
  induction steps with
  | nil => simp [sumAccepted]
  | cons s ss ih =>
      rw [sumAccepted_cons]
      have := stepAccepted_nonneg s
      omega

theorem twWriteSeq_forwarded_sum (cfg : CheckpointConfig) :
    ∀ (steps : List WriteStep) (st : StoreM) (tw : TrackedWriter),
    (twWriteSeq cfg st tw steps).forwarded = steps.map WriteStep.chunk ∧
    (twWriteSeq cfg st tw steps).tw.bytesWritten = tw.bytesWritten + sumAccepted steps := by
  intro steps
  induction steps with
  | nil => intro st tw; simp [twWriteSeq, sumAccepted]
  | cons s ss ih =>
      intro st tw
      obtain ⟨_, hbw, hfwd, _⟩ := twWrite_cases cfg st tw s
      obtain ⟨ihf, ihb⟩ := ih (twWrite cfg st tw s).st (twWrite cfg st tw s).tw
      constructor
      · simp only [twWriteSeq, List.map_cons]
        rw [ihf, hfwd]
      · simp only [twWriteSeq]
        rw [ihb, hbw, sumAccepted_cons]
        ring

/-- The store-bound invariant of a write sequence: if every record logged
for the job respects `bytesTransferred ≤ T` with `totalBytes = T`, and the
writer cannot exceed `T`, then the same holds after the whole sequence —
in particular for every checkpoint the sequence performs, since the write
log keeps every saved record. -/
theorem twWriteSeq_bound (cfg : CheckpointConfig) (id : String) (T : Int) :
    ∀ (steps : List WriteStep) (st : StoreM) (tw : TrackedWriter),
    tw.jobID = id →
    (∀ p ∈ st, p.1 = id → p.2.id = id ∧ p.2.bytesTransferred ≤ T ∧ p.2.totalBytes = T) →
    tw.bytesWritten + sumAccepted steps ≤ T →
    ∀ p ∈ (twWriteSeq cfg st tw steps).st, p.1 = id →
      p.2.id = id ∧ p.2.bytesTransferred ≤ T ∧ p.2.totalBytes = T := by
  intro steps
  induction steps with
  | nil =>
      intro st tw _ hst _
      simpa [twWriteSeq] using hst
  | cons s ss ih =>
      intro st tw hid hst hsum
      obtain ⟨hjob, hbw, _, hstc⟩ := twWrite_cases cfg st tw s
      rw [sumAccepted_cons] at hsum
      have hsum' : (twWrite cfg st tw s).tw.bytesWritten + sumAccepted ss ≤ T := by
        rw [hbw]; omega
      have hid' : (twWrite cfg st tw s).tw.jobID = id := by rw [hjob]; exact hid
      simp only [twWriteSeq]
      rcases hstc with hsame | ⟨r, hget, hsave⟩
      · apply ih _ _ hid' _ hsum'
        rw [hsame]
        exact hst
      · rw [hid] at hget
        have hmem := getJob_mem st id r hget
        obtain ⟨hrid, _, hrT⟩ := hst (id, r) hmem rfl
        apply ih _ _ hid' _ hsum'
        rw [hsave]
        intro p hp hpk
        rcases List.mem_cons.mp hp with hhd | htl
        · subst hhd
          have hacc := stepAccepted_nonneg s
          have hss := sumAccepted_nonneg ss
          exact ⟨hrid, by simp; omega, by simpa using hrT⟩
        · exact hst p htl hpk

/-- Evaluation of `Write` when neither checkpoint condition fires. -/
theorem twWrite_eq_no_cp (cfg : CheckpointConfig) (st : StoreM) (tw : TrackedWriter)
    (s : WriteStep) (h1 : 0 < min s.accepted s.chunk.length)
    (h2 : ¬(tw.bytesWritten + stepAccepted s - tw.lastCheckpoint ≥ cfg.bytesInterval))
    (h3 : ¬(s.now - tw.lastCheckpointT ≥ cfg.timeInterval)) :
    twWrite cfg st tw s =
      { tw := { tw with bytesWritten := tw.bytesWritten + stepAccepted s },
        st := st, forwarded := s.chunk, n := min s.accepted s.chunk.length,
        err := s.werr, checkpointed := false } := by
  have hb : decide (tw.bytesWritten + ((min s.accepted s.chunk.length : Nat) : Int) -
      tw.lastCheckpoint ≥ cfg.bytesInterval) = false :=
    decide_eq_false (by simpa [stepAccepted] using h2)
  have htm : decide (s.now - tw.lastCheckpointT ≥ cfg.timeInterval) = false :=
    decide_eq_false h3
  simp only [twWrite, if_pos h1, hb, htm]
  simp [stepAccepted]

/-- Evaluation of `Write` when a checkpoint condition fires and the record
is present: the store receives the updated record and both thresholds move. -/
theorem twWrite_eq_cp (cfg : CheckpointConfig) (st : StoreM) (tw : TrackedWriter)
    (s : WriteStep) (r : JobRecord) (h1 : 0 < min s.accepted s.chunk.length)
    (h2 : tw.bytesWritten + stepAccepted s - tw.lastCheckpoint ≥ cfg.bytesInterval ∨
      s.now - tw.lastCheckpointT ≥ cfg.timeInterval)
    (hget : getJob st tw.jobID = some r) :
    twWrite cfg st tw s =
      { tw := { jobID := tw.jobID,
                bytesWritten := tw.bytesWritten + stepAccepted s,
                lastCheckpoint := tw.bytesWritten + stepAccepted s,
                lastCheckpointT := s.now },
        st := saveJob { r with bytesTransferred := tw.bytesWritten + stepAccepted s } st,
        forwarded := s.chunk, n := min s.accepted s.chunk.length,
        err := s.werr, checkpointed := true } := by
  have hb : (decide (tw.bytesWritten + ((min s.accepted s.chunk.length : Nat) : Int) -
      tw.lastCheckpoint ≥ cfg.bytesInterval)
      || decide (s.now - tw.lastCheckpointT ≥ cfg.timeInterval)) = true := by
    simp only [Bool.or_eq_true, decide_eq_true_eq]
    simpa [stepAccepted] using h2
  simp only [twWrite, if_pos h1, hb, if_true, twCheckpoint]
  simp only [stepAccepted]
  rw [show ({ tw with bytesWritten :=
      tw.bytesWritten + ((min s.accepted s.chunk.length : Nat) : Int) } :
        TrackedWriter).jobID = tw.jobID from rfl, hget]

/-! ### Claim C7: TrackedWriter pass-through and byte accounting -/

/-- C7 (amended): every chunk written to the `TrackedWriter` is forwarded
to the underlying stream unaltered and in order, and `BytesWritten()`
reports the construction-time `startBytes` plus the sum of the byte counts
the underlying stream accepted. -/
theorem tracked_writer_pass_through (cfg : CheckpointConfig) (st : StoreM)
    (jobID : String) (startBytes t0 : Int) (steps : List WriteStep) :
    (twWriteSeq cfg st (newTrackedWriter jobID startBytes t0) steps).forwarded
      = steps.map WriteStep.chunk ∧
    twBytesWritten (twWriteSeq cfg st (newTrackedWriter jobID startBytes t0) steps).tw
      = startBytes + sumAccepted steps := by
  have h := twWriteSeq_forwarded_sum cfg steps st (newTrackedWriter jobID startBytes t0)
  exact ⟨h.1, by simpa [twBytesWritten, newTrackedWriter] using h.2⟩

/-- C7 counterexample: a `TrackedWriter` resumed at `startBytes = 7` reports
10 after the underlying stream accepted only 3 bytes, so `BytesWritten()`
is not the sum of the accepted byte counts. -/
theorem tracked_writer_sum_cex :
    twBytesWritten (twWriteSeq defaultCheckpointConfig []
        (newTrackedWriter "j" 7 0) [c7step]).tw = 10 ∧
    sumAccepted [c7step] = 3 ∧ (10 : Int) ≠ 3 := by decide

/-! ### Claim C6: checkpointed bytes never exceed total bytes -/

/-- C6 (amended): provided the writer's start offset plus everything the
underlying stream accepts stays within `total_bytes`, every record the
write sequence leaves in the store for the job satisfies
`bytes_transferred ≤ total_bytes`; the `checkpoint` itself stores the raw
counter without clamping. -/
theorem tracked_writer_checkpoint_bound (cfg : CheckpointConfig) (id : String)
    (T startBytes t0 : Int) (steps : List WriteStep) (st : StoreM)
    (hst : ∀ p ∈ st, p.1 = id → p.2.id = id ∧ p.2.bytesTransferred ≤ T ∧ p.2.totalBytes = T)
    (hsum : startBytes + sumAccepted steps ≤ T) :
    ∀ p ∈ (twWriteSeq cfg st (newTrackedWriter id startBytes t0) steps).st, p.1 = id →
      p.2.bytesTransferred ≤ T ∧ p.2.totalBytes = T := by
  intro p hp hpk
  have h := twWriteSeq_bound cfg id T steps st (newTrackedWriter id startBytes t0) rfl hst
    (by simpa [newTrackedWriter] using hsum) p hp hpk
  exact ⟨h.2.1, h.2.2⟩

theorem tracked_writer_checkpoint_bound_witness :
    ({ c6recBig with bytesTransferred := 11 } : JobRecord).bytesTransferred ≤ 100 ∧
    ({ c6recBig with bytesTransferred := 11 } : JobRecord).totalBytes = 100 :=
  tracked_writer_checkpoint_bound
    { bytesInterval := 10, timeInterval := 1000000000000 } "j" 100 0 0
    [{ chunk := [1, 2, 3, 4, 5], accepted := 5, werr := false, now := 0 },
     { chunk := [6, 7, 8, 9, 10, 11], accepted := 6, werr := false, now := 0 }]
    [("j", c6recBig)] (by decide) (by decide)
    ("j", { c6recBig with bytesTransferred := 11 }) (by decide) rfl

/-- C6 counterexample: writing 5 bytes against a record whose `total_bytes`
is 3 checkpoints `bytes_transferred = 5 > 3`; nothing in `checkpoint`
enforces the bound. -/
theorem tracked_writer_bound_cex :
    getJob (twWriteSeq { bytesInterval := 1, timeInterval := 1000000000 }
        [("j", c6rec)] (newTrackedWriter "j" 0 0)
        [{ chunk := [0, 1, 2, 3, 4], accepted := 5, werr := false, now := 0 }]).st "j"
      = some { c6rec with bytesTransferred := 5 } ∧
    ¬((5 : Int) ≤ c6rec.totalBytes) := by decide

/-! ### Claim C5: the checkpoint predicate and the 5+6-byte scenario -/

/-- C5 (amended): `Write` checkpoints exactly when the underlying stream
accepted at least one byte and the byte interval or the time interval has
elapsed; and with `CheckpointConfig{BytesInterval: 10, TimeInterval: 1ms}`
writing 5 bytes and then 6 more leaves `bytes_transferred = 11`, provided
the first write happens within `TimeInterval` of the writer's creation (so
no time-based checkpoint intervenes). -/
theorem tracked_writer_checkpoint_rule :
    (∀ (cfg : CheckpointConfig) (st : StoreM) (tw : TrackedWriter) (s : WriteStep),
      ((twWrite cfg st tw s).checkpointed = true) ↔
        (0 < min s.accepted s.chunk.length ∧
          (tw.bytesWritten + stepAccepted s - tw.lastCheckpoint ≥ cfg.bytesInterval ∨
           s.now - tw.lastCheckpointT ≥ cfg.timeInterval))) ∧
    (∀ (st : StoreM) (r : JobRecord) (t0 t1 t2 : Int),
      getJob st "job2" = some r → r.id = "job2" → t1 - t0 < 1000000 →
      getJob (twWriteSeq { bytesInterval := 10, timeInterval := 1000000 } st
          (newTrackedWriter "job2" 0 t0)
          [{ chunk := [1, 2, 3, 4, 5], accepted := 5, werr := false, now := t1 },
           { chunk := [6, 7, 8, 9, 10, 11], accepted := 6, werr := false, now := t2 }]).st
        "job2" = some { r with bytesTransferred := 11 }) := by
  constructor
  · exact fun cfg st tw s => twWrite_checkpointed_iff cfg st tw s
  · intro st r t0 t1 t2 hget hid ht
    have e1 : twWrite { bytesInterval := 10, timeInterval := 1000000 } st
        (newTrackedWriter "job2" 0 t0)
        { chunk := [1, 2, 3, 4, 5], accepted := 5, werr := false, now := t1 } =
        { tw := { jobID := "job2", bytesWritten := 5, lastCheckpoint := 0,
                  lastCheckpointT := t0 },
          st := st, forwarded := [1, 2, 3, 4, 5], n := 5, err := false,
          checkpointed := false } := by
      rw [twWrite_eq_no_cp { bytesInterval := 10, timeInterval := 1000000 } st
        (newTrackedWriter "job2" 0 t0)
        { chunk := [1, 2, 3, 4, 5], accepted := 5, werr := false, now := t1 }
        (by norm_num)
        (by norm_num [newTrackedWriter, stepAccepted])
        (by simp only [newTrackedWriter]; omega)]
      norm_num [newTrackedWriter, stepAccepted]
    have e2 : twWrite { bytesInterval := 10, timeInterval := 1000000 } st
        ({ jobID := "job2", bytesWritten := 5, lastCheckpoint := 0,
           lastCheckpointT := t0 } : TrackedWriter)
        { chunk := [6, 7, 8, 9, 10, 11], accepted := 6, werr := false, now := t2 } =
        { tw := { jobID := "job2", bytesWritten := 11, lastCheckpoint := 11,
                  lastCheckpointT := t2 },
          st := saveJob { r with bytesTransferred := 11 } st,
          forwarded := [6, 7, 8, 9, 10, 11], n := 6, err := false,
          checkpointed := true } := by
      rw [twWrite_eq_cp { bytesInterval := 10, timeInterval := 1000000 } st
        ({ jobID := "job2", bytesWritten := 5, lastCheckpoint := 0,
           lastCheckpointT := t0 } : TrackedWriter)
        { chunk := [6, 7, 8, 9, 10, 11], accepted := 6, werr := false, now := t2 } r
        (by norm_num)
        (Or.inl (by norm_num [stepAccepted])) hget]
      norm_num [stepAccepted]
    simp only [twWriteSeq, e1, e2]
    have hkey : ({ r with bytesTransferred := (11 : Int) } : JobRecord).id = "job2" := hid
    rw [← hkey]
    exact getJob_saveJob_self _ _

theorem tracked_writer_checkpoint_rule_witness :
    getJob (twWriteSeq { bytesInterval := 10, timeInterval := 1000000 }
        [("job2", c5rec)] (newTrackedWriter "job2" 0 0)
        [{ chunk := [1, 2, 3, 4, 5], accepted := 5, werr := false, now := 10 },
         { chunk := [6, 7, 8, 9, 10, 11], accepted := 6, werr := false, now := 20 }]).st
      "job2" = some { c5rec with bytesTransferred := 11 } :=
  tracked_writer_checkpoint_rule.2 [("job2", c5rec)] c5rec 0 10 20
    (by decide) (by decide) (by decide)

/-- C5 counterexample, refuting the claim as stated: (a) a zero-byte write
issued after the time interval has elapsed does not checkpoint, although
the claim's predicate holds; (b) with the 1 ms time interval, a first write
landing exactly 1 ms after creation checkpoints 5 bytes, and a second write
0.5 ms later checkpoints nothing, leaving `bytes_transferred = 5`, not 11. -/
theorem tracked_writer_checkpoint_cex :
    ((twWrite { bytesInterval := 10, timeInterval := 1000000 } [("job2", c5rec)]
        (newTrackedWriter "job2" 0 0)
        { chunk := [], accepted := 0, werr := false, now := 2000000 }).checkpointed = false
      ∧ ((2000000 : Int) - 0 ≥ 1000000)) ∧
    getJob (twWriteSeq { bytesInterval := 10, timeInterval := 1000000 }
        [("job2", c5rec)] (newTrackedWriter "job2" 0 0)
        [{ chunk := [1, 2, 3, 4, 5], accepted := 5, werr := false, now := 1000000 },
         { chunk := [6, 7, 8, 9, 10, 11], accepted := 6, werr := false, now := 1500000 }]).st
      "job2" = some { c5rec with bytesTransferred := 5 } := by decide

/-! ### Worker pool lemmas (claim C9) -/

theorem addLoop_spec (target : Int) : ∀ (k : Nat) (p : WorkerPool),
    (target - p.workerCount).toNat = k → wfPool p →
    wfPool (addLoop target p) ∧
      (addLoop target p).workerCount = max p.workerCount target := by
  intro k
  induction k using Nat.strong_induction_on with
  | _ k ih =>
      intro p hk hwf
      rw [addLoop]
      by_cases h : p.workerCount < target
      · rw [dif_pos h]
        have hwf' : wfPool (addWorker p) := by
          simp only [wfPool, addWorker, List.length_cons]
          rw [wfPool] at hwf
          omega
        have hm : (target - (addWorker p).workerCount).toNat < k := by
          simp only [addWorker]
          omega
        obtain ⟨h1, h2⟩ := ih _ hm (addWorker p) rfl hwf'
        refine ⟨h1, ?_⟩
        rw [h2]
        simp only [addWorker]
        rw [max_eq_right (by omega : p.workerCount + 1 ≤ target),
          max_eq_right (by omega : p.workerCount ≤ target)]
      · rw [dif_neg h]
        exact ⟨hwf, by rw [max_eq_left (by omega : target ≤ p.workerCount)]⟩

theorem removeLoop_spec (target : Int) (htn : 0 ≤ target) : ∀ (k : Nat) (p : WorkerPool),
    p.workers.length = k → wfPool p →
    wfPool (removeLoop target p) ∧
      (removeLoop target p).workerCount = min p.workerCount target := by
  intro k
  induction k using Nat.strong_induction_on with
  | _ k ih =>
      intro p hk hwf
      rw [removeLoop]
      by_cases h : target < p.workerCount
      · rw [dif_pos h]
        rw [wfPool] at hwf
        split
        · rename_i heq
          exfalso
          have h0 : ([] : List Nat).length = 0 := rfl
          rw [heq, h0] at hwf
          omega
        · rename_i a rest heq
          have hlen : p.workers.length = rest.length + 1 := by
            rw [heq, List.length_cons]
          have hwf' : wfPool (removeWorker p) := by
            simp only [wfPool, removeWorker, heq]
            omega
          have hm : (removeWorker p).workers.length < k := by
            simp only [removeWorker, heq]
            omega
          obtain ⟨h1, h2⟩ := ih _ hm (removeWorker p) rfl hwf'
          refine ⟨h1, ?_⟩
          rw [h2]
          simp only [removeWorker, heq]
          rw [min_eq_right (by omega : target ≤ p.workerCount - 1),
            min_eq_right (by omega : target ≤ p.workerCount)]
      · rw [dif_neg h]
        exact ⟨hwf, by rw [min_eq_left (by omega : p.workerCount ≤ target)]⟩

/-- C9: for every non-negative target `n`, `SetWorkerCount(n)` leaves
`WorkerCount() = n`, and the count/size invariant is preserved (so calls
can be chained, e.g. 5 then 2). -/
theorem set_worker_count_spec (p : WorkerPool) (n : Int)
    (hwf : wfPool p) (hn : 0 ≤ n) :
    workerCountOf (setWorkerCount p n) = n ∧ wfPool (setWorkerCount p n) := by
  obtain ⟨h1, h2⟩ := addLoop_spec n _ p rfl hwf
  obtain ⟨h3, h4⟩ := removeLoop_spec n hn _ (addLoop n p) rfl h1
  refine ⟨?_, h3⟩
  rw [workerCountOf, setWorkerCount, h4, h2]
  exact min_eq_right (le_max_right _ _)

theorem set_worker_count_spec_witness :
    workerCountOf (setWorkerCount (setWorkerCount ⟨[], 0, 0⟩ 5) 2) = 2 ∧
    workerCountOf (setWorkerCount (⟨[], 0, 0⟩ : WorkerPool) 5) = 5 := by
  have h5 := set_worker_count_spec ⟨[], 0, 0⟩ 5 (by decide) (by decide)
  exact ⟨(set_worker_count_spec _ 2 h5.2 (by decide)).1, h5.1⟩

/-! ### Tracker lifecycle theorems (claims C3, C4, C10) -/

/-- Phase 2: a record is present and the remaining operations for `id` are
`MarkInProgress` then the terminal mark. -/
theorem trace_mid (id : String) (ok : Bool) (msg : Option String) :
    ∀ (ops : List TrackerOp) (st : StoreM) (r : JobRecord),
    wfStore st → getJob st id = some r →
    ops.filter (fun op => opTarget op = id) = [TrackerOp.inProgress id, termOp ok id msg] →
    stateTrace id (runOps st ops).2 = [JobState.inProgress, termState ok] := by
  intro ops
  induction ops with
  | nil => intro st r _ _ hf; simp at hf
  | cons op rest ih =>
      intro st r hwf hget hf
      by_cases ht : opTarget op = id
      · rw [List.filter_cons_of_pos (by simpa using ht)] at hf
        have hop : op = TrackerOp.inProgress id := (List.cons_eq_cons.mp hf).1
        have hrest : rest.filter (fun op => opTarget op = id) = [termOp ok id msg] :=
          (List.cons_eq_cons.mp hf).2
        subst hop
        have hid : r.id = id := wfStore_getJob_id st id r hwf hget
        have happ : applyOp st (TrackerOp.inProgress id) =
            some { r with state := JobState.inProgress } := by
          simp [applyOp, hget]
        rw [runOps_cons_some st _ rest _ happ,
          stateTrace_cons_self id _ _ (by simpa using hid)]
        have hget' : getJob (saveJob { r with state := JobState.inProgress } st) id =
            some { r with state := JobState.inProgress } := by
          have h2 := getJob_saveJob_self { r with state := JobState.inProgress } st
          simpa [hid] using h2
        rw [trace_term id ok msg rest _ _ (wfStore_saveJob _ st hwf) hget' hrest]
      · rw [List.filter_cons_of_neg (by simpa using ht)] at hf
        rw [runOps_trace_other st op rest id hwf ht]
        exact ih (runOp st op) r (wfStore_runOp st op hwf)
          ((getJob_runOp_other st op id hwf ht).trans hget) hf

/-- Phase 1: the operations for `id` are exactly the engine's program
order `InitJob; MarkInProgress; MarkCompleted-or-MarkFailed`. -/
theorem trace_full (id : String) (job : TransferJob) (ok : Bool) (msg : Option String) :
    ∀ (ops : List TrackerOp) (st : StoreM),
    wfStore st → job.id = id →
    ops.filter (fun op => opTarget op = id) =
      [TrackerOp.init job, TrackerOp.inProgress id, termOp ok id msg] →
    stateTrace id (runOps st ops).2 =
      [JobState.pending, JobState.inProgress, termState ok] := by
  intro ops
  induction ops with
  | nil => intro st _ _ hf; simp at hf
  | cons op rest ih =>
      intro st hwf hjob hf
      by_cases ht : opTarget op = id
      · rw [List.filter_cons_of_pos (by simpa using ht)] at hf
        have hop : op = TrackerOp.init job := (List.cons_eq_cons.mp hf).1
        have hrest : rest.filter (fun op => opTarget op = id) =
            [TrackerOp.inProgress id, termOp ok id msg] := (List.cons_eq_cons.mp hf).2
        subst hop
        have happ : applyOp st (TrackerOp.init job) = some (initRecord job) := rfl
        have hid : (initRecord job).id = id := hjob
        rw [runOps_cons_some st _ rest _ happ,
          stateTrace_cons_self id _ _ hid]
        have hget' : getJob (saveJob (initRecord job) st) id = some (initRecord job) := by
          have h2 := getJob_saveJob_self (initRecord job) st
          simpa [hid] using h2
        rw [trace_mid id ok msg rest _ _ (wfStore_saveJob _ st hwf) hget' hrest]
        rfl
      · rw [List.filter_cons_of_neg (by simpa using ht)] at hf
        rw [runOps_trace_other st op rest id hwf ht]
        exact ih (runOp st op) (wfStore_runOp st op hwf) hjob hf

/-- C3 (amended): whenever the operations addressing a given id, in order,
are the engine's program order `InitJob; MarkInProgress;` then exactly one
of `MarkCompleted`/`MarkFailed` — arbitrary operations on other ids
interleaved anywhere — the states written to the store for that id are
`Pending, InProgress, Completed-or-Failed`: a non-decreasing path through
the lifecycle DAG.  The tracker itself does not guard against out-of-order
calls (see the counterexample). -/
theorem tracker_dag_program_order (id : String) (job : TransferJob) (ok : Bool)
    (msg : Option String) (ops : List TrackerOp) (st : StoreM)
    (hwf : wfStore st) (hjob : job.id = id)
    (hfil : ops.filter (fun op => opTarget op = id) =
      [TrackerOp.init job, TrackerOp.inProgress id, termOp ok id msg]) :
    stateTrace id (runOps st ops).2 =
      [JobState.pending, JobState.inProgress, termState ok] ∧
    isDagTrace (stateTrace id (runOps st ops).2) = true := by
  have h := trace_full id job ok msg ops st hwf hjob hfil
  refine ⟨h, ?_⟩
  rw [h]
  cases ok <;> rfl

theorem tracker_dag_program_order_witness :
    stateTrace "j" (runOps [] [TrackerOp.init jobK, TrackerOp.init jobJ,
        TrackerOp.inProgress "j", TrackerOp.inProgress "k",
        TrackerOp.completed "j", TrackerOp.completed "k"]).2 =
      [JobState.pending, JobState.inProgress, termState true] ∧
    isDagTrace (stateTrace "j" (runOps [] [TrackerOp.init jobK, TrackerOp.init jobJ,
        TrackerOp.inProgress "j", TrackerOp.inProgress "k",
        TrackerOp.completed "j", TrackerOp.completed "k"]).2) = true :=
  tracker_dag_program_order "j" jobJ true none
    [TrackerOp.init jobK, TrackerOp.init jobJ, TrackerOp.inProgress "j",
     TrackerOp.inProgress "k", TrackerOp.completed "j", TrackerOp.completed "k"]
    [] (by decide) (by decide) (by decide)

/-- C3 counterexample, refuting the claim over arbitrary operation
sequences: calling `MarkInProgress` after `MarkCompleted` moves the record
back to `InProgress` — the written sequence `Pending, Completed,
InProgress` leaves the DAG. -/
theorem tracker_dag_cex :
    stateTrace "j" (runOps [] [TrackerOp.init jobJ, TrackerOp.completed "j",
        TrackerOp.inProgress "j"]).2
      = [JobState.pending, JobState.completed, JobState.inProgress] ∧
    isDagTrace [JobState.pending, JobState.completed, JobState.inProgress] = false := by
  decide

/-- C4: after a successful `MarkCompleted(id)` the stored record is in
state `Completed` with `bytes_transferred = total_bytes`, whatever the
previous transferred count was. -/
theorem mark_completed_forces_bytes (st : StoreM) (id : String) (r : JobRecord)
    (hwf : wfStore st) (h : getJob st id = some r) :
    getJob (runOp st (TrackerOp.completed id)) id =
      some { r with state := JobState.completed, bytesTransferred := r.totalBytes } := by
  have hid : r.id = id := wfStore_getJob_id st id r hwf h
  have happ : applyOp st (TrackerOp.completed id) =
      some { r with state := JobState.completed, bytesTransferred := r.totalBytes } := by
    simp [applyOp, h]
  rw [runOp_eq_of_some st _ _ happ]
  have h2 := getJob_saveJob_self
    { r with state := JobState.completed, bytesTransferred := r.totalBytes } st
  simpa [hid] using h2

theorem mark_completed_forces_bytes_witness :
    getJob (runOp [("j", c4rec)] (TrackerOp.completed "j")) "j"
      = some { c4rec with
               state := JobState.completed,
               bytesTransferred := c4rec.totalBytes } :=
  mark_completed_forces_bytes [("j", c4rec)] "j" c4rec (by decide) (by decide)

/-- C10: `InitJob` on a job whose `FileInfo` is nil takes the guarded
branch (no dereference), storing a `Pending` record with both byte counts
zero. -/
theorem init_job_nil_fileinfo (st : StoreM) (job : TransferJob)
    (h : job.fileInfo = none) :
    getJob (runOp st (TrackerOp.init job)) job.id =
      some { id := job.id, sourcePath := job.sourcePath,
             destinationPath := job.destinationPath, state := JobState.pending,
             bytesTransferred := 0, totalBytes := 0, error := "" } := by
  have happ : applyOp st (TrackerOp.init job) = some (initRecord job) := rfl
  rw [runOp_eq_of_some st _ _ happ]
  have h2 := getJob_saveJob_self (initRecord job) st
  have hid : (initRecord job).id = job.id := rfl
  rw [hid] at h2
  rw [h2]
  simp [initRecord, h]

theorem init_job_nil_fileinfo_witness :
    getJob (runOp [] (TrackerOp.init jobJ)) jobJ.id =
      some { id := jobJ.id, sourcePath := jobJ.sourcePath,
             destinationPath := jobJ.destinationPath, state := JobState.pending,
             bytesTransferred := 0, totalBytes := 0, error := "" } :=
  init_job_nil_fileinfo [] jobJ (by decide)

/-! ### Claim C2: the checksum flag is dead -/

/-- C2: `transferFile` never consults the `checksum` flag (the CRC adapters
are never attached — the `TODO` at cmd/gfast/main.go:248), so its result is
the same with verification "enabled" or not, and a transfer whose provider
steps all succeed always ends `Completed` — no comparison of source-read
and destination-write checksums can ever mark it `Failed`. -/
theorem transfer_checksum_flag_unused :
    (∀ (cfg : CheckpointConfig) (job : TransferJob) (env : TransferEnv)
      (t0 : Int) (st : StoreM),
      transferFile cfg job env true t0 st = transferFile cfg job env false t0 st) ∧
    (getJob (transferFile defaultCheckpointConfig tfJob tfEnv true 0 []).1
        tfJob.id).map JobRecord.state = some JobState.completed := by
  constructor
  · intro cfg job env t0 st
    rfl
  · decide

/-! ### Claim C8: store round-trip -/

theorem stateOfString_stateToString (s : JobState) :
    stateOfString (stateToString s) = some s := by
  cases s <;> rfl

theorem unmarshal_marshal (r : JobRecord) :
    unmarshalJobRecord (marshalJobRecord r) = some r := by
  by_cases he : r.error = ""
  · simp [marshalJobRecord, unmarshalJobRecord, he, jStr, jNum, jState, jGet,
      stateOfString_stateToString]
    rw [← he]
  · simp [marshalJobRecord, unmarshalJobRecord, he, jStr, jNum, jState, jGet,
      stateOfString_stateToString]

/-- C8: `SaveJob` then `GetJob` on the same id returns a record equal to
the saved one in every field, for every record — the JSON round-trip is
the identity, including the `omitempty` error field. -/
theorem bolt_save_get_roundtrip (r : JobRecord) (db : BoltStore) :
    boltGetJob (boltSaveJob r db) r.id = some r := by
  have hg : jGet (boltSaveJob r db) r.id = some (marshalJobRecord r) := by
    simp [boltSaveJob, jGet]
  simp only [boltGetJob, hg]
  exact unmarshal_marshal r

/-! ### Walker lemmas (claim C1) -/

theorem stackSize_cons (e : Path × FSNode) (rest : List (Path × FSNode)) :
    stackSize (e :: rest) = nodeSize e.2 + stackSize rest := by
  simp [stackSize]

theorem stackSize_append (a b : List (Path × FSNode)) :
    stackSize (a ++ b) = stackSize a + stackSize b := by
  simp [stackSize]

theorem stackSize_reverse (l : List (Path × FSNode)) :
    stackSize l.reverse = stackSize l := by
  simp [stackSize, List.map_reverse, List.sum_reverse]

theorem stackSize_dirEntries (rel : Path) (cs : List FSNode) :
    stackSize (dirEntriesOf rel cs) ≤ sizeList cs := by
  induction cs with
  | nil => simp [dirEntriesOf, stackSize]
  | cons c cs ih =>
      by_cases hd : nodeIsDir c
      · simp only [dirEntriesOf, List.filter_cons, hd, decide_True, if_true,
          List.map_cons, stackSize_cons, sizeList] at ih ⊢
        omega
      · simp only [dirEntriesOf, List.filter_cons] at ih ⊢
        simp only [hd, decide_False, Bool.false_eq_true, if_false, sizeList]
        omega

theorem walkLoop_nil (s d : Path) : walkLoop s d [] = Except.ok [] := by
  rw [walkLoop]

theorem walkLoop_cons_dir (s d rel : Path) (m : String) (cs : List FSNode)
    (rest : List (Path × FSNode)) :
    walkLoop s d ((rel, FSNode.dir m cs) :: rest) =
      match walkLoop s d ((dirEntriesOf rel cs).reverse ++ rest) with
      | Except.error e => Except.error e
      | Except.ok tailJobs => Except.ok (fileJobsOf s d rel cs ++ tailJobs) := by
  rw [walkLoop]

theorem allDirs_dirEntriesOf (rel : Path) (cs : List FSNode) :
    allDirs (dirEntriesOf rel cs) := by
  intro e he
  simp only [dirEntriesOf, List.mem_map] at he
  obtain ⟨c, hc, rfl⟩ := he
  exact (List.mem_filter.mp hc).2

theorem walkLoop_ok (s d : Path) : ∀ (n : Nat) (st : List (Path × FSNode)),
    stackSize st = n → allDirs st → ∃ js, walkLoop s d st = Except.ok js := by
  intro n
  induction n using Nat.strong_induction_on with
  | _ n ih =>
      intro st hn had
      cases st with
      | nil => exact ⟨[], walkLoop_nil s d⟩
      | cons e rest =>
          obtain ⟨rel, t⟩ := e
          cases t with
          | file nm sz mt =>
              have := had (rel, FSNode.file nm sz mt) (List.mem_cons_self _ _)
              simp [nodeIsDir] at this
          | dir m cs =>
              have hsz : stackSize ((dirEntriesOf rel cs).reverse ++ rest) < n := by
                rw [← hn, stackSize_append, stackSize_reverse, stackSize_cons]
                have h1 := stackSize_dirEntries rel cs
                simp only [nodeSize]
                omega
              have had' : allDirs ((dirEntriesOf rel cs).reverse ++ rest) := by
                intro e he
                rcases List.mem_append.mp he with h | h
                · exact allDirs_dirEntriesOf rel cs e (List.mem_reverse.mp h)
                · exact had e (List.mem_cons_of_mem _ h)
              obtain ⟨t, ht⟩ := ih _ hsz _ rfl had'
              refine ⟨fileJobsOf s d rel cs ++ t, ?_⟩
              rw [walkLoop_cons_dir, ht]

theorem walkLoop_append (s d : Path) : ∀ (n : Nat) (st1 : List (Path × FSNode)),
    stackSize st1 = n → ∀ (st2 : List (Path × FSNode)) (js1 js2 : List WalkJob),
    allDirs st1 → walkLoop s d st1 = Except.ok js1 →
    walkLoop s d st2 = Except.ok js2 →
    walkLoop s d (st1 ++ st2) = Except.ok (js1 ++ js2) := by
  intro n
  induction n using Nat.strong_induction_on with
  | _ n ih =>
      intro st1 hn st2 js1 js2 had h1 h2
      cases st1 with
      | nil =>
          rw [walkLoop_nil] at h1
          cases h1
          simpa using h2
      | cons e rest =>
          obtain ⟨rel, t⟩ := e
          cases t with
          | file nm sz mt =>
              have := had (rel, FSNode.file nm sz mt) (List.mem_cons_self _ _)
              simp [nodeIsDir] at this
          | dir m cs =>
              rw [walkLoop_cons_dir] at h1
              cases hm : walkLoop s d ((dirEntriesOf rel cs).reverse ++ rest) with
              | error e => rw [hm] at h1; cases h1
              | ok t =>
                  rw [hm] at h1
                  cases h1
                  have hsz : stackSize ((dirEntriesOf rel cs).reverse ++ rest) < n := by
                    rw [← hn, stackSize_append, stackSize_reverse, stackSize_cons]
                    have := stackSize_dirEntries rel cs
                    simp only [nodeSize]
                    omega
                  have had' : allDirs ((dirEntriesOf rel cs).reverse ++ rest) := by
                    intro e he
                    rcases List.mem_append.mp he with h | h
                    · exact allDirs_dirEntriesOf rel cs e (List.mem_reverse.mp h)
                    · exact had e (List.mem_cons_of_mem _ h)
                  have happ := ih _ hsz _ rfl st2 t js2 had' hm h2
                  show walkLoop s d ((rel, FSNode.dir m cs) :: (rest ++ st2)) = _
                  rw [walkLoop_cons_dir]
                  rw [show (dirEntriesOf rel cs).reverse ++ (rest ++ st2) =
                    ((dirEntriesOf rel cs).reverse ++ rest) ++ st2 from
                      (List.append_assoc _ _ _).symm, happ]
                  rw [List.append_assoc]

theorem stackFiles_append (a b : List (Path × FSNode)) :
    stackFiles (a ++ b) = stackFiles a ++ stackFiles b := by
  simp [stackFiles]

theorem stackFiles_reverse_perm (l : List (Path × FSNode)) :
    List.Perm (stackFiles l.reverse) (stackFiles l) :=
  (List.reverse_perm l).flatMap_right _

theorem filePathsList_eq_flatMap (rel : Path) (cs : List FSNode) :
    filePathsList rel cs = cs.flatMap (fun c => filePathsFrom (rel ++ [fname c]) c) := by
  induction cs with
  | nil => simp [filePathsList]
  | cons c cs ih => simp [filePathsList, ih]

theorem pathsFrom_file (rel : Path) (c : FSNode) (h : nodeIsDir c = false) :
    filePathsFrom rel c = [rel] := by
  cases c with
  | file n sz mt => simp [filePathsFrom]
  | dir n cs => simp [nodeIsDir] at h

theorem flatMap_files_eq_map (rel : Path) :
    ∀ (l : List FSNode), (∀ c ∈ l, nodeIsDir c = false) →
    l.flatMap (fun c => filePathsFrom (rel ++ [fname c]) c) =
      l.map (fun c => rel ++ [fname c]) := by
  intro l
  induction l with
  | nil => intro _; rfl
  | cons c cs ih =>
      intro h
      simp only [List.flatMap_cons, List.map_cons]
      rw [pathsFrom_file _ _ (h c (List.mem_cons_self _ _)),
        ih (fun c hc => h c (List.mem_cons_of_mem _ hc))]
      rfl

theorem stackFiles_dirEntries (rel : Path) (cs : List FSNode) :
    stackFiles (dirEntriesOf rel cs) =
      (cs.filter (fun c => nodeIsDir c)).flatMap
        (fun c => filePathsFrom (rel ++ [fname c]) c) := by
  unfold stackFiles dirEntriesOf
  induction cs.filter (fun c => nodeIsDir c) with
  | nil => rfl
  | cons c l ih => simp only [List.map_cons, List.flatMap_cons, ih]

/-- One listing splits, up to permutation, into its file paths and the
paths below its subdirectories. -/
theorem listing_perm (rel : Path) (cs : List FSNode) :
    List.Perm (filePathsList rel cs)
      ((cs.filter (fun c => !nodeIsDir c)).map (fun c => rel ++ [fname c]) ++
        stackFiles (dirEntriesOf rel cs)) := by
  rw [filePathsList_eq_flatMap, stackFiles_dirEntries]
  have hneg : (fun c => !(!nodeIsDir c)) = fun c => nodeIsDir c := by
    funext c
    simp
  have hpart : List.Perm ((cs.filter (fun c => !nodeIsDir c)) ++
      (cs.filter (fun c => nodeIsDir c))) cs := by
    have := List.filter_append_perm (fun c => !nodeIsDir c) cs
    rwa [hneg] at this
  have hbind := (hpart.symm).flatMap_right
    (fun c => filePathsFrom (rel ++ [fname c]) c)
  rw [List.flatMap_append] at hbind
  rw [flatMap_files_eq_map rel (cs.filter (fun c => !nodeIsDir c))
    (fun c hc => by simpa using (List.mem_filter.mp hc).2)] at hbind
  exact hbind

/-- The source paths of the jobs a stack produces are, up to permutation,
the source root joined to the file paths below the stack. -/
theorem walkLoop_perm (s d : Path) : ∀ (n : Nat) (st : List (Path × FSNode))
    (js : List WalkJob), stackSize st = n → allDirs st →
    walkLoop s d st = Except.ok js →
    List.Perm (js.map WalkJob.sourcePath)
      ((stackFiles st).map (fun p => s ++ p)) := by
  intro n
  induction n using Nat.strong_induction_on with
  | _ n ih =>
      intro st js hn had h1
      cases st with
      | nil =>
          rw [walkLoop_nil] at h1
          cases h1
          simp [stackFiles]
      | cons e rest =>
          obtain ⟨rel, t⟩ := e
          cases t with
          | file nm sz mt =>
              have := had (rel, FSNode.file nm sz mt) (List.mem_cons_self _ _)
              simp [nodeIsDir] at this
          | dir m cs =>
              rw [walkLoop_cons_dir] at h1
              cases hm : walkLoop s d ((dirEntriesOf rel cs).reverse ++ rest) with
              | error e => rw [hm] at h1; cases h1
              | ok t =>
                  rw [hm] at h1
                  cases h1
                  have hsz : stackSize ((dirEntriesOf rel cs).reverse ++ rest) < n := by
                    rw [← hn, stackSize_append, stackSize_reverse, stackSize_cons]
                    have := stackSize_dirEntries rel cs
                    simp only [nodeSize]
                    omega
                  have had' : allDirs ((dirEntriesOf rel cs).reverse ++ rest) := by
                    intro e he
                    rcases List.mem_append.mp he with h | h
                    · exact allDirs_dirEntriesOf rel cs e (List.mem_reverse.mp h)
                    · exact had e (List.mem_cons_of_mem _ h)
                  have hih := ih _ hsz _ t rfl had' hm
                  -- left side
                  rw [List.map_append]
                  have hfj : (fileJobsOf s d rel cs).map WalkJob.sourcePath =
                      ((cs.filter (fun c => !nodeIsDir c)).map
                        (fun c => rel ++ [fname c])).map (fun p => s ++ p) := by
                    simp [fileJobsOf, mkWalkJob, List.map_map]
                  rw [hfj]
                  -- right side
                  have hsf : stackFiles ((rel, FSNode.dir m cs) :: rest) =
                      filePathsList rel cs ++ stackFiles rest := by
                    simp [stackFiles, filePathsFrom]
                  rw [hsf, List.map_append]
                  -- assemble
                  apply List.Perm.trans (List.Perm.append_left _ hih)
                  rw [stackFiles_append, List.map_append, ← List.append_assoc]
                  apply List.Perm.trans (List.Perm.append_right _
                    (List.Perm.append_left _
                      ((stackFiles_reverse_perm (dirEntriesOf rel cs)).map _)))
                  apply List.Perm.append_right
                  rw [← List.map_append]
                  exact ((listing_perm rel cs).symm).map _

/-- Every path below a forest of children of `rel` starts with `rel`
followed by the name of one of the children. -/
theorem pathsList_extend : ∀ (k : Nat) (cs : List FSNode) (rel p : Path),
    sizeList cs = k → p ∈ filePathsList rel cs →
    ∃ c ∈ cs, ∃ suf, p = rel ++ [fname c] ++ suf := by
  intro k
  induction k using Nat.strong_induction_on with
  | _ k ih =>
      intro cs rel p hk hp
      cases cs with
      | nil => simp [filePathsList] at hp
      | cons c cs =>
          rw [show filePathsList rel (c :: cs) =
            filePathsFrom (rel ++ [fname c]) c ++ filePathsList rel cs from rfl] at hp
          rcases List.mem_append.mp hp with h | h
          · cases c with
            | file nm sz mt =>
                simp only [filePathsFrom, List.mem_singleton] at h
                exact ⟨FSNode.file nm sz mt, List.mem_cons_self _ _, [],
                  by simp [h, fname]⟩
            | dir nm cs2 =>
                rw [show filePathsFrom (rel ++ [fname (FSNode.dir nm cs2)])
                    (FSNode.dir nm cs2) =
                  filePathsList (rel ++ [fname (FSNode.dir nm cs2)]) cs2 from rfl] at h
                have hlt : sizeList cs2 < k := by
                  rw [← hk]
                  simp only [sizeList, nodeSize]
                  omega
                obtain ⟨c2, _, suf2, hps⟩ := ih _ hlt cs2 _ p rfl h
                refine ⟨FSNode.dir nm cs2, List.mem_cons_self _ _,
                  [fname c2] ++ suf2, ?_⟩
                rw [hps]
                simp
          · have hlt : sizeList cs < k := by
              rw [← hk]
              simp only [sizeList]
              have hpos : 0 < nodeSize c := by cases c <;> simp [nodeSize]
              omega
            obtain ⟨c2, hc2, suf2, hps⟩ := ih _ hlt cs rel p rfl h
            exact ⟨c2, List.mem_cons_of_mem _ hc2, suf2, hps⟩

/-- Every path below a node at `rel` extends `rel`. -/
theorem pathsFrom_extend (rel p : Path) (t : FSNode)
    (h : p ∈ filePathsFrom rel t) : ∃ suf, p = rel ++ suf := by
  cases t with
  | file nm sz mt =>
      simp only [filePathsFrom, List.mem_singleton] at h
      exact ⟨[], by simp [h]⟩
  | dir nm cs =>
      rw [show filePathsFrom rel (FSNode.dir nm cs) = filePathsList rel cs from rfl] at h
      obtain ⟨c, _, suf, hps⟩ := pathsList_extend (sizeList cs) cs rel p rfl h
      exact ⟨[fname c] ++ suf, by rw [hps, List.append_assoc]⟩

/-- Under distinct sibling names, the file paths below a forest carry no
duplicates. -/
theorem nodup_filePathsList : ∀ (k : Nat) (cs : List FSNode) (rel : Path),
    sizeList cs = k → distinctNames (namesList cs) = true →
    wellNamedList cs = true → (filePathsList rel cs).Nodup := by
  intro k
  induction k using Nat.strong_induction_on with
  | _ k ih =>
      intro cs rel hk hdn hwn
      cases cs with
      | nil => simp [filePathsList]
      | cons c cs =>
          rw [show filePathsList rel (c :: cs) =
            filePathsFrom (rel ++ [fname c]) c ++ filePathsList rel cs from rfl]
          have hdn2 : (∀ x ∈ cs, ¬fname x = fname c) ∧
              distinctNames (List.map fname cs) = true := by
            simpa [show namesList (c :: cs) = fname c :: namesList cs from rfl,
              distinctNames, namesList] using hdn
          have hdn' : distinctNames (namesList cs) = true := hdn2.2
          have hwn2 : wellNamed c = true ∧ wellNamedList cs = true := by
            simpa [wellNamedList] using hwn
          have hwn1 : wellNamed c = true := hwn2.1
          have hwn' : wellNamedList cs = true := hwn2.2
          refine List.Nodup.append ?_ ?_ ?_
          · cases c with
            | file nm sz mt => simp [filePathsFrom]
            | dir nm cs2 =>
                rw [show filePathsFrom (rel ++ [fname (FSNode.dir nm cs2)])
                    (FSNode.dir nm cs2) =
                  filePathsList (rel ++ [fname (FSNode.dir nm cs2)]) cs2 from rfl]
                have hlt : sizeList cs2 < k := by
                  rw [← hk]
                  simp only [sizeList, nodeSize]
                  omega
                have hwp : distinctNames (namesList cs2) = true ∧
                    wellNamedList cs2 = true := by
                  simpa [wellNamed] using hwn1
                exact ih _ hlt cs2 _ rfl hwp.1 hwp.2
          · have hlt : sizeList cs < k := by
              rw [← hk]
              simp only [sizeList]
              have hpos : 0 < nodeSize c := by cases c <;> simp [nodeSize]
              omega
            exact ih _ hlt cs rel rfl hdn' hwn'
          · intro p hp hq
            obtain ⟨s1, hs1⟩ := pathsFrom_extend _ p c hp
            obtain ⟨c2, hc2, s2, hs2⟩ := pathsList_extend (sizeList cs) cs rel p rfl hq
            rw [hs1] at hs2
            have hlen : (rel ++ [fname c]).length = (rel ++ [fname c2]).length := by
              simp
            have heq := (List.append_inj hs2 hlen).1
            have hname : fname c = fname c2 := by
              have := List.append_cancel_left heq
              simpa using this
            exact hdn2.1 c2 hc2 hname.symm

theorem metaOf_isDir (c : FSNode) : (metaOf c).isDir = nodeIsDir c := by
  cases c <;> rfl

/-- Every job a stack of directories produces carries a non-directory
`FileInfo`. -/
theorem walkLoop_no_dir_jobs (s d : Path) : ∀ (n : Nat) (st : List (Path × FSNode))
    (js : List WalkJob), stackSize st = n → allDirs st →
    walkLoop s d st = Except.ok js → ∀ j ∈ js, j.info.isDir = false := by
  intro n
  induction n using Nat.strong_induction_on with
  | _ n ih =>
      intro st js hn had h1
      cases st with
      | nil =>
          rw [walkLoop_nil] at h1
          cases h1
          intro j hj
          simp at hj
      | cons e rest =>
          obtain ⟨rel, t⟩ := e
          cases t with
          | file nm sz mt =>
              have := had (rel, FSNode.file nm sz mt) (List.mem_cons_self _ _)
              simp [nodeIsDir] at this
          | dir m cs =>
              rw [walkLoop_cons_dir] at h1
              cases hm : walkLoop s d ((dirEntriesOf rel cs).reverse ++ rest) with
              | error e => rw [hm] at h1; cases h1
              | ok t =>
                  rw [hm] at h1
                  cases h1
                  have hsz : stackSize ((dirEntriesOf rel cs).reverse ++ rest) < n := by
                    rw [← hn, stackSize_append, stackSize_reverse, stackSize_cons]
                    have := stackSize_dirEntries rel cs
                    simp only [nodeSize]
                    omega
                  have had' : allDirs ((dirEntriesOf rel cs).reverse ++ rest) := by
                    intro e he
                    rcases List.mem_append.mp he with h | h
                    · exact allDirs_dirEntriesOf rel cs e (List.mem_reverse.mp h)
                    · exact had e (List.mem_cons_of_mem _ h)
                  intro j hj
                  rcases List.mem_append.mp hj with h | h
                  · simp only [fileJobsOf, List.mem_map] at h
                    obtain ⟨c, hc, rfl⟩ := h
                    rw [show (mkWalkJob s d (rel ++ [fname c]) (metaOf c)).info
                        = metaOf c from rfl, metaOf_isDir]
                    have := (List.mem_filter.mp hc).2
                    simpa using this
                  · exact ih _ hsz _ t rfl had' hm j h

/-- C1: over any well-named finite tree the walk succeeds, the multiset of
emitted job source paths is exactly the tree's regular-file paths joined
under the source root — each file exactly once, since that path list has no
duplicates — and no emitted job carries a directory `FileInfo`. -/
theorem walker_unique_jobs (srcRoot destRoot : Path) (root : FSNode)
    (h : wellNamed root = true) :
    ∃ jobs, walk srcRoot destRoot root = Except.ok jobs ∧
      List.Perm (jobs.map WalkJob.sourcePath)
        ((filePathsFrom [] root).map (fun p => srcRoot ++ p)) ∧
      ((filePathsFrom [] root).map (fun p => srcRoot ++ p)).Nodup ∧
      ∀ j ∈ jobs, j.info.isDir = false := by
  cases root with
  | file nm sz mt =>
      refine ⟨[mkWalkJob srcRoot destRoot [] (metaOf (FSNode.file nm sz mt))],
        rfl, ?_, ?_, ?_⟩
      · simp only [filePathsFrom, List.map_cons, List.map_nil, mkWalkJob]
        exact List.Perm.refl _
      · simp [filePathsFrom]
      · intro j hj
        simp only [List.mem_singleton] at hj
        rw [hj]
        rfl
  | dir m cs =>
      have had : allDirs [([], FSNode.dir m cs)] := by
        intro e he
        simp only [List.mem_singleton] at he
        rw [he]
        rfl
      obtain ⟨js, hjs⟩ := walkLoop_ok srcRoot destRoot _ _ rfl had
      refine ⟨js, hjs, ?_, ?_, ?_⟩
      · have hp := walkLoop_perm srcRoot destRoot _ _ js rfl had hjs
        simpa [stackFiles, filePathsFrom] using hp
      · have hw : distinctNames (namesList cs) = true ∧ wellNamedList cs = true := by
          simpa [wellNamed] using h
        have hnd : (filePathsFrom [] (FSNode.dir m cs)).Nodup := by
          rw [show filePathsFrom [] (FSNode.dir m cs) = filePathsList [] cs from rfl]
          exact nodup_filePathsList (sizeList cs) cs [] rfl hw.1 hw.2
        exact hnd.map (fun a b hab => List.append_cancel_left hab)
      · exact fun j hj => walkLoop_no_dir_jobs srcRoot destRoot _ _ js rfl had hjs j hj

theorem walker_unique_jobs_witness :
    wellNamed testTree = true ∧
    (∃ jobs, walk ["A"] ["B"] testTree = Except.ok jobs ∧
      List.Perm (jobs.map WalkJob.sourcePath)
        ((filePathsFrom [] testTree).map (fun p => ["A"] ++ p)) ∧
      ((filePathsFrom [] testTree).map (fun p => ["A"] ++ p)).Nodup ∧
      ∀ j ∈ jobs, j.info.isDir = false) :=
  ⟨by decide, walker_unique_jobs ["A"] ["B"] testTree (by decide)⟩

end Gofast
